import Mathlib

/-!
Verification of the storage layer of a sharded wide-column database
(an LSM engine in Rust).  Rust strings are modelled as their UTF-8 byte
sequences (`Str := List Nat`): Rust `String` equality and lexicographic
order coincide with byte-sequence equality and order, and every string a
claim touches is valid UTF-8.  Machine integers are modelled as `Nat`/`Int`
with explicit `% 2^w` where overflow matters.  Fallible or panicking code
paths return `Option` (`none` models a Rust panic).
-/

/-- Rust strings as UTF-8 byte sequences. -/
abbrev Str := List Nat

/-- Big-endian byte encoding of `n % 256^w`, exactly `w` bytes
(Rust `to_be_bytes` on a `w`-byte integer). -/
def beBytes (w n : Nat) : List Nat :=
  (List.range w).map (fun i => n / 256 ^ (w - 1 - i) % 256)

/-- Big-endian byte decoding (Rust `from_be_bytes` after `try_into`). -/
def fromBeBytes (bytes : List Nat) : Nat :=
  bytes.foldl (fun acc b => acc * 256 + b) 0

/-- Two's-complement read of a `w*8`-bit big-endian byte string as a
signed integer (Rust `iN::from_be_bytes`). -/
def fromBeBytesSigned (w : Nat) (bytes : List Nat) : Int :=
  let n := fromBeBytes bytes
  if n < 2 ^ (8 * w - 1) then (n : Int) else (n : Int) - 2 ^ (8 * w)

/-- First-match association-list lookup, the model of `HashMap::get` /
`BTreeMap::get` (maps built by the code never hold duplicate keys). -/
def assocLookup {κ α : Type} [DecidableEq κ] (entries : List (κ × α)) (key : κ) :
    Option α :=
  match entries with
  | [] => none
  | (k, v) :: rest => if k = key then some v else assocLookup rest key

/-- Update the entry at `key`, or append `(key, f dflt)` when absent; the
model of `HashMap::entry(key).or_insert(dflt)` followed by a mutation `f`. -/
def assocUpdate {κ α : Type} [DecidableEq κ] (entries : List (κ × α)) (key : κ)
    (dflt : α) (f : α → α) : List (κ × α) :=
  match entries with
  | [] => [(key, f dflt)]
  | (k, v) :: rest =>
    if k = key then (k, f v) :: rest else (k, v) :: assocUpdate rest key dflt f

/-- Remove the entry at `key` (model of `HashMap::remove`). -/
def assocRemove {κ α : Type} [DecidableEq κ] (entries : List (κ × α)) (key : κ) :
    List (κ × α) :=
  match entries with
  | [] => []
  | (k, v) :: rest => if k = key then rest else (k, v) :: assocRemove rest key

/-- Decimal digits of a natural number, as ASCII bytes (Rust `Display`
for unsigned integers). -/
def natDecimal (n : Nat) : Str :=
  (Nat.toDigits 10 n).map Char.toNat

/-- The compile-time constant `HASH_KEY_BYTE_SIZE` from `storage/src/lib.rs`. -/
def HASH_KEY_BYTE_SIZE : Nat := 128

/-- The column-type catalog of `table.rs` (`ColumnType`). -/
inductive ColumnType where
  | Varchar (size : Nat)
  | Int32
  | Int64
  | Unsigned32
  | Unsigned64
  | Float32
  | Float64
  | Boolean
deriving DecidableEq, Repr

/-- `ColumnType::byte_size` from `table.rs`: declared on-disk width. -/
def ColumnType.byte_size : ColumnType → Nat
  | .Varchar size => size
  | .Int32 => 4
  | .Int64 => 8
  | .Unsigned32 => 4
  | .Unsigned64 => 8
  | .Float32 => 4
  | .Float64 => 8
  | .Boolean => 1

/-- A column of a table schema (`table.rs`, `Column`). -/
structure Column where
  column_type : ColumnType
  nullable : Bool
deriving DecidableEq, Repr

/-- `TableSchema` from `table.rs`.  `columns` lists the entries of the
`BTreeMap<String, Column>` in its ascending (lexicographic) key order. -/
structure TableSchema where
  name : Str
  sort_key_type : ColumnType
  columns : List (Str × Column)
deriving DecidableEq, Repr

/-- `TableSchema::row_byte_size` from `table.rs`: hash key, sort key,
declared column widths, a 16-byte timestamp and a 1-byte tombstone. -/
def TableSchema.row_byte_size (schema : TableSchema) : Nat :=
  let values_byte_size :=
    (schema.columns.map (fun c => c.2.column_type.byte_size)).sum
  HASH_KEY_BYTE_SIZE + schema.sort_key_type.byte_size + values_byte_size + 16 + 1

/-- The scalar union `Value` from `common/src/value.rs`.  Floats carry
their IEEE-754 bit pattern (the code only ever moves float bytes around;
no claim performs float arithmetic). -/
inductive Value where
  | Varchar (s : Str)
  | Int32 (i : Int)
  | Int64 (i : Int)
  | Unsigned32 (n : Nat)
  | Unsigned64 (n : Nat)
  | Float32 (bits : Nat)
  | Float64 (bits : Nat)
  | Boolean (b : Bool)
  | Null
deriving DecidableEq, Repr

/-- `Value::to_bytes` from `value.rs`: strings yield their raw bytes,
integers and floats their big-endian bytes, booleans one byte, null the
empty vector. -/
def Value.to_bytes : Value → List Nat
  | .Varchar s => s
  | .Int32 i => beBytes 4 ((i % 2 ^ 32).toNat)
  | .Int64 i => beBytes 8 ((i % 2 ^ 64).toNat)
  | .Unsigned32 n => beBytes 4 n
  | .Unsigned64 n => beBytes 8 n
  | .Float32 bits => beBytes 4 bits
  | .Float64 bits => beBytes 8 bits
  | .Boolean b => if b then [1] else [0]
  | .Null => []

/-- `Display for Value` from `value.rs`, as UTF-8 bytes; used to build
primary keys.  No claim builds a primary key from a float sort key, so
float display (Rust's shortest-roundtrip float printing, not shallowly
embeddable) is left as the empty byte string. -/
def Value.display : Value → Str
  | .Varchar s => s
  | .Int32 i => if i < 0 then 45 :: natDecimal i.natAbs else natDecimal i.toNat
  | .Int64 i => if i < 0 then 45 :: natDecimal i.natAbs else natDecimal i.toNat
  | .Unsigned32 n => natDecimal n
  | .Unsigned64 n => natDecimal n
  | .Float32 _ => []
  | .Float64 _ => []
  | .Boolean b => if b then [116, 114, 117, 101] else [102, 97, 108, 115, 101]
  | .Null => []

/-- The row entity of the storage crate (spec section 3; the snapshot's
`row.rs` predates the fields `timestamp`, `version` and
`marked_for_deletion`, which every claim-relevant caller in `memtable.rs`,
`util.rs` and `transaction.rs` uses).  `values` models the
`HashMap<String, Value>` as an association list without duplicate keys. -/
structure Row where
  hash_key : Str
  sort_key : Value
  primary_key : Str
  values : List (Str × Value)
  timestamp : Nat
  version : Nat
  marked_for_deletion : Bool
deriving DecidableEq, Repr

/-- Modelled from the spec: `Row::new` is absent from the snapshot
(`row.rs` is an older revision); per spec section 3 and the snapshot's
`row.rs`, the primary key is `hash_key ++ ":" ++ display(sort_key)`
(58 is ASCII `:`), the timestamp is the current epoch milliseconds
(passed in as `now`), the version starts at 1 (the `transaction.rs` test
`test_get_for_update` observes 1) and the tombstone is clear. -/
def Row.new (hash_key : Str) (sort_key : Value) (values : List (Str × Value))
    (now : Nat) : Row :=
  { hash_key := hash_key
    sort_key := sort_key
    primary_key := hash_key ++ [58] ++ sort_key.display
    values := values
    timestamp := now
    version := 1
    marked_for_deletion := false }

/-- Modelled from the spec: `Row::new_with_timestamp` (used by
`decode_row`) is absent from the snapshot; same as `Row.new` but with the
caller's timestamp. -/
def Row.new_with_timestamp (hash_key : Str) (sort_key : Value)
    (values : List (Str × Value)) (timestamp : Nat) : Row :=
  { Row.new hash_key sort_key values timestamp with timestamp := timestamp }

/-- The per-column encoding loop of `encode_row` (`util.rs` lines 26-32).
Each column value is fetched with `.unwrap()` (panic – `none` – when a
schema column is missing from the row) and written into a
`BufWriter::new(vec![0u8; byte_size])`.  `BufWriter` buffers writes
smaller than its 8 KiB capacity and `get_mut` does not flush, so
`bytes.append(value_buffer.get_mut())` appends the pre-filled zero bytes;
the buffered value bytes are dropped when the writer goes out of scope.
Every value a claim encodes is far below 8 KiB. -/
def encodeColumns (values : List (Str × Value)) :
    List (Str × Column) → Option (List Nat)
  | [] => some []
  | (name, col) :: rest =>
    match assocLookup values name with
    | none => none
    | some _ =>
      (encodeColumns values rest).map
        (fun tail => List.replicate col.column_type.byte_size 0 ++ tail)

/-- `encode_row` from `util.rs`.  The hash key goes through the same
unflushed `BufWriter::new(vec![0u8; HASH_KEY_BYTE_SIZE])` as the column
values, so the output holds `HASH_KEY_BYTE_SIZE` zero bytes for it; the
sort key is appended via `to_bytes` directly (no padding); then the
column regions, the 16-byte big-endian timestamp and the tombstone byte. -/
def encode_row (row : Row) (schema : TableSchema) : Option (List Nat) :=
  (encodeColumns row.values schema.columns).map
    (fun cols =>
      List.replicate HASH_KEY_BYTE_SIZE 0 ++ row.sort_key.to_bytes ++ cols ++
        beBytes 16 row.timestamp ++
        [if row.marked_for_deletion then 1 else 0])

/-- `parse_value_from_bytes` from `util.rs`: a zero first byte means
`Null`; otherwise the bytes are read per column type.  An empty slice
panics on `bytes[0]` and a wrong-width slice panics in `try_into`
(`none`).  `String::from_utf8(..).unwrap()` is modelled as the identity:
every byte string a claim decodes is valid UTF-8. -/
def parse_value_from_bytes (bytes : List Nat) (column_type : ColumnType) :
    Option Value :=
  match bytes with
  | [] => none
  | b :: _ =>
    if b = 0 then some .Null
    else
      match column_type with
      | .Varchar _ => some (.Varchar bytes)
      | .Int32 => if bytes.length = 4 then some (.Int32 (fromBeBytesSigned 4 bytes)) else none
      | .Int64 => if bytes.length = 8 then some (.Int64 (fromBeBytesSigned 8 bytes)) else none
      | .Unsigned32 => if bytes.length = 4 then some (.Unsigned32 (fromBeBytes bytes)) else none
      | .Unsigned64 => if bytes.length = 8 then some (.Unsigned64 (fromBeBytes bytes)) else none
      | .Float32 => if bytes.length = 4 then some (.Float32 (fromBeBytes bytes)) else none
      | .Float64 => if bytes.length = 8 then some (.Float64 (fromBeBytes bytes)) else none
      | .Boolean => some (.Boolean (b = 1))

/-- The per-column decoding loop of `decode_row` (`util.rs` lines 57-67),
walking the byte string left to right; a too-short slice panics (`none`). -/
def decodeColumns (bytes : List Nat) :
    List (Str × Column) → Option (List (Str × Value) × List Nat)
  | [] => some ([], bytes)
  | (name, col) :: rest =>
    let size := col.column_type.byte_size
    if size ≤ bytes.length then
      match parse_value_from_bytes (bytes.take size) col.column_type with
      | none => none
      | some v =>
        (decodeColumns (bytes.drop size) rest).map
          (fun (vs, remaining) => ((name, v) :: vs, remaining))
    else none

/-- `decode_row` from `util.rs`: the hash key is the raw first
`HASH_KEY_BYTE_SIZE` bytes (padding zeros included), then the sort key,
the columns, the 16-byte timestamp, and the tombstone byte. -/
def decode_row (bytes : List Nat) (schema : TableSchema) : Option Row :=
  if HASH_KEY_BYTE_SIZE ≤ bytes.length then
    let hash_key := bytes.take HASH_KEY_BYTE_SIZE
    let rest0 := bytes.drop HASH_KEY_BYTE_SIZE
    let sks := schema.sort_key_type.byte_size
    if sks ≤ rest0.length then
      match parse_value_from_bytes (rest0.take sks) schema.sort_key_type with
      | none => none
      | some sort_key =>
        match decodeColumns (rest0.drop sks) schema.columns with
        | none => none
        | some (values, rest1) =>
          if 16 ≤ rest1.length then
            let timestamp := fromBeBytes (rest1.take 16)
            match (rest1.drop 16).head? with
            | none => none
            | some tomb =>
              let row := Row.new_with_timestamp hash_key sort_key values timestamp
              some (if tomb = 1 then { row with marked_for_deletion := true } else row)
          else none
    else none
  else none

/-- Byte-wise lexicographic strict order on byte strings – the order of
Rust `str` comparison (`>` / `<` on `&str` compare UTF-8 bytes). -/
def strLt : Str → Str → Bool
  | [], [] => false
  | [], _ :: _ => true
  | _ :: _, [] => false
  | a :: as, b :: bs => if a < b then true else if b < a then false else strLt as bs

/-- The memtable of `memtable.rs`: a probabilistic skip list over rows,
ordered by primary key with unique keys.  The skip-list levels only make
the search fast; the reachable states are exactly sorted duplicate-free
row lists, so the node chain is modelled as the list of its rows in key
order.  The `memory_size` counter (byte accounting for the flush
threshold) is not part of any claim and is not modelled. -/
abbrev Memtable := List Row

/-- `Memtable::get` (`memtable.rs` lines 42-67): find the node with the
primary key; a tombstoned node is reported as absent. -/
def Memtable.get (m : Memtable) (primary_key : Str) : Option Row :=
  match m with
  | [] => none
  | node :: rest =>
    if node.primary_key = primary_key then
      if node.marked_for_deletion then none else some node
    else Memtable.get rest primary_key

/-- `Memtable::insert` (`memtable.rs` lines 69-103).  When the key
exists: a replayed row is accepted only when its timestamp strictly
exceeds the stored one (otherwise the memtable is unchanged), a live
insert stamps `now` and bumps the version; both replace `values` and
clear the tombstone, and neither touches the stored version on replay.
When the key is new the row is spliced in, unchanged, at its sorted
position. -/
def Memtable.insert (m : Memtable) (row : Row) (from_commit_log : Bool)
    (now : Nat) : Memtable :=
  match m with
  | [] => [row]
  | node :: rest =>
    if node.primary_key = row.primary_key then
      if from_commit_log then
        if row.timestamp ≤ node.timestamp then node :: rest
        else
          { node with
              timestamp := row.timestamp
              values := row.values
              marked_for_deletion := false } :: rest
      else
        { node with
            timestamp := now
            version := node.version + 1
            values := row.values
            marked_for_deletion := false } :: rest
    else if strLt node.primary_key row.primary_key then
      node :: Memtable.insert rest row from_commit_log now
    else
      row :: node :: rest

/-- `Memtable::delete` (`memtable.rs` lines 105-137).  Absent key: return
`false`, memtable unchanged (no tombstone is inserted).  Present key with
a replay timestamp override: apply (stamp the override, set the
tombstone, return `true`) only when the override strictly exceeds the
stored timestamp, else return `false` unchanged.  Present key without an
override: stamp `now`, set the tombstone, return `true` – whether or not
the node was already tombstoned. -/
def Memtable.delete (m : Memtable) (primary_key : Str)
    (timestamp : Option Nat) (now : Nat) : Bool × Memtable :=
  match m with
  | [] => (false, [])
  | node :: rest =>
    if node.primary_key = primary_key then
      match timestamp with
      | some ts =>
        if ts ≤ node.timestamp then (false, node :: rest)
        else (true, { node with timestamp := ts, marked_for_deletion := true } :: rest)
      | none => (true, { node with timestamp := now, marked_for_deletion := true } :: rest)
    else
      let res := Memtable.delete rest primary_key timestamp now
      (res.1, node :: res.2)

/-- A buffered transaction operation (`transaction.rs`, `Operation`). -/
inductive TxOperation where
  | Insert (row : Row)
  | Delete (primary_key : Str)
deriving DecidableEq, Repr

/-- `Transaction` from `transaction.rs`: per-table read-set of observed
versions and per-table ordered operation buffer. -/
structure Transaction where
  id : Nat
  affected_rows : List (Str × List (Str × Nat))
  operations : List (Str × List TxOperation)
  committed : Bool
deriving DecidableEq, Repr

/-- `Transaction::new`. -/
def Transaction.new (transaction_id : Nat) : Transaction :=
  { id := transaction_id, affected_rows := [], operations := [], committed := false }

/-- `Transaction::add_affected_row`: record the row's version in the
table's read-set, first observation wins. -/
def Transaction.add_affected_row (t : Transaction) (row : Row)
    (table_name : Str) : Transaction :=
  { t with
      affected_rows :=
        assocUpdate t.affected_rows table_name []
          (fun m =>
            if (assocLookup m row.primary_key).isSome then m
            else m ++ [(row.primary_key, row.version)]) }

/-- `Transaction::get_for_update`: record the observed version of a row a
lookup returned (nothing on a miss). -/
def Transaction.get_for_update (t : Transaction) (row : Option Row)
    (table_name : Str) : Transaction :=
  match row with
  | some r => t.add_affected_row r table_name
  | none => t

/-- `Transaction::insert` (`transaction.rs` lines 33-44): record the
overwritten row's version when the memtable holds a live row at the key,
then buffer the insert.  The memtable itself is not mutated. -/
def Transaction.insert (t : Transaction) (row : Row) (memtable : Memtable)
    (table_name : Str) : Transaction :=
  let t1 :=
    match Memtable.get memtable row.primary_key with
    | some replaced => t.add_affected_row replaced table_name
    | none => t
  { t1 with
      operations :=
        assocUpdate t1.operations table_name [] (fun ops => ops ++ [.Insert row]) }

/-- `Transaction::delete` (`transaction.rs` lines 46-59): consult only
the memtable; on a live hit record the version, buffer the delete and
return `true`, otherwise return `false` leaving the transaction
untouched. -/
def Transaction.delete (t : Transaction) (primary_key : Str)
    (memtable : Memtable) (table_name : Str) : Bool × Transaction :=
  match Memtable.get memtable primary_key with
  | some deleted =>
    let t1 := t.add_affected_row deleted table_name
    (true,
      { t1 with
          operations :=
            assocUpdate t1.operations table_name []
              (fun ops => ops ++ [.Delete primary_key]) })
  | none => (false, t)

/-- One table's read-set check inside `Transaction::can_commit`: every
observed primary key must still resolve to a live row of the same
version. -/
def versionsOk (m : Memtable) : List (Str × Nat) → Bool
  | [] => true
  | (pk, v) :: rest =>
    match Memtable.get m pk with
    | some row => row.version = v && versionsOk m rest
    | none => false

/-- `Transaction::can_commit` (`transaction.rs` lines 71-90).  The vote
is `false` as soon as one affected row fails the version check;
`tables.get(name).unwrap()` panics (`none`) when an affected table was
dropped. -/
def Transaction.can_commit (t : Transaction) (tables : List (Str × Memtable)) :
    Option Bool :=
  canCommitGo tables t.affected_rows
where
  canCommitGo (tables : List (Str × Memtable)) :
      List (Str × List (Str × Nat)) → Option Bool
  | [] => some true
  | (table_name, vs) :: rest =>
    match assocLookup tables table_name with
    | none => none
    | some m => if versionsOk m vs then canCommitGo tables rest else some false

/-- Apply one table's buffered operations to its memtable
(`Transaction::commit`, inner loop).  Inserts go through
`Memtable.insert` with `from_replay = false`, deletes through
`Memtable.delete` with no override.  The flush branch (swapping out a
memtable past its byte cap into an SSTable write) moves rows between
storage tiers without changing which operations were applied and no
claim concerns the byte cap, so it is not modelled. -/
def applyOperations (m : Memtable) (now : Nat) : List TxOperation → Memtable
  | [] => m
  | .Insert row :: rest => applyOperations (Memtable.insert m row false now) now rest
  | .Delete pk :: rest => applyOperations (Memtable.delete m pk none now).2 now rest

/-- `Transaction::commit` (`transaction.rs` lines 92-124): apply every
buffered operation, table by table; `tables.get_mut(name).unwrap()`
panics (`none`) when a buffered table is missing. -/
def Transaction.commit (t : Transaction) (tables : List (Str × Memtable))
    (now : Nat) : Option (List (Str × Memtable)) :=
  commitGo now tables t.operations
where
  commitGo (now : Nat) (tables : List (Str × Memtable)) :
      List (Str × List TxOperation) → Option (List (Str × Memtable))
  | [] => some tables
  | (table_name, ops) :: rest =>
    match assocLookup tables table_name with
    | none => none
    | some m =>
      commitGo now (assocUpdate tables table_name m (fun m0 => applyOperations m0 now ops)) rest

/-- The handler error taxonomy (`handlers.rs`); the human-readable
detail strings are irrelevant to every claim and elided. -/
inductive HandlerError where
  | Client
  | Server
  | Disconnected
deriving DecidableEq, Repr

/-- `TransactionManager` from `transaction_manager.rs`. -/
structure TransactionManager where
  transactions : List (Nat × Transaction)
  coordinated_transactions : List Nat
deriving Repr

/-- `TransactionManager::commit` (`transaction_manager.rs` lines 31-57).
An uncoordinated id is a client error; otherwise the transaction is
removed, validated with `can_commit`, and either aborted with a server
error – leaving every table untouched – or applied with
`Transaction::commit`.  The outer `none` models the panics
(`transactions.remove(..).unwrap()` on a coordinated id with no local
buffer, and the panics inside `can_commit` / `commit`). -/
def TransactionManager.commit (manager : TransactionManager)
    (transaction_id : Nat) (tables : List (Str × Memtable)) (now : Nat) :
    Option (Except HandlerError Unit × TransactionManager × List (Str × Memtable)) :=
  if manager.coordinated_transactions.contains transaction_id then
    let manager1 : TransactionManager :=
      { transactions := assocRemove manager.transactions transaction_id
        coordinated_transactions :=
          manager.coordinated_transactions.filter (fun x => x ≠ transaction_id) }
    match assocLookup manager.transactions transaction_id with
    | none => none
    | some t =>
      match t.can_commit tables with
      | none => none
      | some false => some (.error .Server, manager1, tables)
      | some true =>
        match t.commit tables now with
        | none => none
        | some tables2 => some (.ok (), manager1, tables2)
  else some (.error .Client, manager, tables)

/-- Maximum of a list of naturals (`Iterator::max`): `none` on empty. -/
def natListMax : List Nat → Option Nat
  | [] => none
  | x :: xs =>
    some
      (match natListMax xs with
       | none => x
       | some m => max x m)

/-- The partition tag drawn by `CommitLog::open_new` (`commit_log.rs`
lines 27-37) and embedded in the log's filename:
`rng.gen_range(0usize..partitions.iter().max().unwrap())` – a uniform
draw from `[0, max(partitions))`.  `draw` selects the outcome; `draw % max`
ranges over exactly the values `gen_range` can return.  An empty owned
set panics in `.unwrap()` and `max = 0` panics in `gen_range` (empty
range); both are `none`. -/
def CommitLog.open_new_partition (partitions : List Nat) (draw : Nat) : Option Nat :=
  match natListMax partitions with
  | none => none
  | some m => if m = 0 then none else some (draw % m)

/-- The filter of `get_commit_logs_filenames_with_metadata`
(`commit_log.rs` lines 202-226): a log file is kept for replay iff its
filename's table equals the loaded schema's name and its filename's
partition tag is in the thread's owned set. -/
def commitLogFileKept (table_name file_table_name : Str) (file_partition : Nat)
    (partitions : List Nat) : Bool :=
  decide (table_name = file_table_name) && partitions.contains file_partition

/-- The byte record appended by `CommitLog::write_insert` (`commit_log.rs`
lines 56-73): op tag 1, the encoded row, a trailing newline. -/
def CommitLog.write_insert_bytes (row : Row) (schema : TableSchema) :
    Option (List Nat) :=
  (encode_row row schema).map (fun row_bytes => 1 :: (row_bytes ++ [10]))

/-- The byte record appended by `CommitLog::write_delete` (`commit_log.rs`
lines 75-96): op tag 2, the 16-byte big-endian current timestamp, the raw
primary-key bytes, a trailing newline. -/
def CommitLog.write_delete_bytes (primary_key : Str) (now : Nat) : List Nat :=
  2 :: (beBytes 16 now ++ primary_key ++ [10])

/-- The loop of `split_by_newline` (`commit_log.rs` lines 233-242):
`current` is the partial line being pushed to; a `0x0A` byte flushes a
non-empty line and empty lines are dropped; at the end the final
non-empty line is flushed (lines 244-246). -/
def splitByNewlineGo : List Nat → List Nat → List (List Nat)
  | [], current => if current.isEmpty then [] else [current]
  | b :: rest, current =>
    if b = 10 then
      if current.isEmpty then splitByNewlineGo rest []
      else current :: splitByNewlineGo rest []
    else splitByNewlineGo rest (current ++ [b])

/-- `split_by_newline` from `commit_log.rs` lines 228-249: cut the log's
bytes at every `0x0A` byte and drop the empty chunks. -/
def split_by_newline (data : List Nat) : List (List Nat) :=
  splitByNewlineGo data []

/-- Outcome of an SSTable point lookup inside one segment:
`Crash` models a Rust panic (a missing `partition_index` entry under
direct `HashMap` indexing, the `usize` underflow of
`current_row_number - 1`, or a positioned read past the file). -/
inductive SearchOutcome where
  | Crash
  | Miss
  | Found (row : Row)
deriving DecidableEq, Repr

/-- The right row bound computed by `binary_search_row_in_file`
(`sstable.rs` lines 172-175): `num_rows - 1` when the target partition is
the largest indexed key, otherwise `partition_index[partition + 1]` –
a direct `HashMap` index that panics (`none`) when `partition + 1` is not
in the index.  Nothing is subtracted from `partition_index[partition+1]`. -/
def codeRightBound (partition_index : List (Nat × Nat))
    (partition num_of_rows : Nat) : Option Nat :=
  match natListMax (partition_index.map Prod.fst) with
  | none => none
  | some mx =>
    if mx = partition then some (num_of_rows - 1)
    else assocLookup partition_index (partition + 1)

/-- Modelled from the spec, for comparison with `codeRightBound`: the
spec's right bound is `index[next_partition] - 1` where `next_partition`
is the next partition PRESENT in the index, or `num_rows - 1` when no
next entry exists. -/
def specRightBound (partition_index : List (Nat × Nat))
    (partition num_of_rows : Nat) : Option Nat :=
  match natListMax ((partition_index.map Prod.fst).filter (fun k => partition < k)) with
  | none => some (num_of_rows - 1)
  | some next =>
    match assocLookup partition_index next with
    | none => none
    | some r => some (r - 1)

/-- The binary-search loop of `binary_search_row_in_file` (`sstable.rs`
lines 179-197) over the decoded row blocks of a segment body (`rows`). -/
def binarySearchRows (rows : List Row) (primary_key : Str)
    (left right : Nat) : SearchOutcome :=
  if h : right < left then .Miss
  else
    match rows.get? ((left + right) / 2) with
    | none => .Crash
    | some row =>
      if strLt row.primary_key primary_key then
        binarySearchRows rows primary_key ((left + right) / 2 + 1) right
      else if strLt primary_key row.primary_key then
        if hzero : (left + right) / 2 = 0 then .Crash
        else binarySearchRows rows primary_key left ((left + right) / 2 - 1)
      else .Found row
termination_by right + 1 - left
decreasing_by
  · omega
  · omega

/-- `binary_search_row_in_file` (`sstable.rs` lines 159-200) for one
segment, over its decoded row blocks: a partition absent from the index
is a miss; otherwise the bounded range `[left, right]` is binary
searched. -/
def binary_search_row_in_file (primary_key : Str) (partition : Nat)
    (rows : List Row) (partition_index : List (Nat × Nat))
    (num_of_rows : Nat) : SearchOutcome :=
  match assocLookup partition_index partition with
  | none => .Miss
  | some left =>
    match codeRightBound partition_index partition num_of_rows with
    | none => .Crash
    | some right => binarySearchRows rows primary_key left right

/-- `check_value_matches_column_type` from `validation.rs`. -/
def check_value_matches_column_type (value : Value) (column_type : ColumnType) :
    Bool :=
  match value, column_type with
  | .Varchar _, .Varchar _ => true
  | .Int32 _, .Int32 => true
  | .Int64 _, .Int64 => true
  | .Unsigned32 _, .Unsigned32 => true
  | .Unsigned64 _, .Unsigned64 => true
  | .Float32 _, .Float32 => true
  | .Float64 _, .Float64 => true
  | .Boolean _, .Boolean => true
  | _, _ => false

/-- `check_string_length` from `validation.rs`: `none` models the panic
reached when a `Varchar` value meets a non-`Varchar` column type. -/
def check_string_length (value : Value) (column_type : ColumnType) :
    Option Bool :=
  match value with
  | .Varchar s =>
    match column_type with
    | .Varchar max_length => some (s.length ≤ max_length)
    | _ => none
  | _ => some true

/-- The schema columns missing from the request's values map – the set
difference `schema_columns \\ values_columns` of
`validate_values_against_schema` (`validation.rs` lines 10-20). -/
def schemaMissingColumns (values : List (Str × Value)) (schema : TableSchema) :
    List Str :=
  (schema.columns.map Prod.fst).filter (fun n => (assocLookup values n).isNone)

/-- The per-column error loop of `validate_values_against_schema`
(`validation.rs` lines 34-62): a null value only checks nullability; a
non-null value checks the type and (for strings) the length.  `true`
means no error was pushed for any column.  A missing column's
`.unwrap()` (unreachable after the missing-columns check) and the panic
inside `check_string_length` are `none`. -/
def columnsErrorFree (values : List (Str × Value)) :
    List (Str × Column) → Option Bool
  | [] => some true
  | (name, col) :: rest =>
    match assocLookup values name with
    | none => none
    | some .Null => (columnsErrorFree values rest).map (fun r => col.nullable && r)
    | some v =>
      match check_string_length v col.column_type with
      | none => none
      | some lengthOk =>
        (columnsErrorFree values rest).map
          (fun r => check_value_matches_column_type v col.column_type && lengthOk && r)

/-- `validate_values_against_schema` from `validation.rs`: reject when a
schema column is missing from the values map; otherwise accept iff the
sort key is non-null and type-correct and no per-column error was pushed.
Column names present in `values` but absent from the schema are never
inspected.  `some true` is `Ok`, `some false` an `Err`, `none` a panic. -/
def validate_values_against_schema (sort_key : Value)
    (values : List (Str × Value)) (schema : TableSchema) : Option Bool :=
  if schemaMissingColumns values schema ≠ [] then some false
  else
    (columnsErrorFree values schema.columns).map
      (fun colsOk =>
        (match sort_key with
         | .Null => false
         | _ => true) &&
          check_value_matches_column_type sort_key schema.sort_key_type && colsOk)

/-- The column name `age` (UTF-8 bytes), from the spec's scenario schema. -/
def ageName : Str := [97, 103, 101]

/-- The column name `name` (UTF-8 bytes). -/
def nameName : Str := [110, 97, 109, 101]

/-- The spec's scenario schema
`users>sort_key:UNSIGNED32;name:VARCHAR(16);age:UNSIGNED32?`
(columns in `BTreeMap` order: `age` before `name`). -/
def usersSchema : TableSchema :=
  { name := [117, 115, 101, 114, 115]
    sort_key_type := .Unsigned32
    columns := [(ageName, ⟨.Unsigned32, true⟩), (nameName, ⟨.Varchar 16, false⟩)] }

/-- The values of the spec's scenario row: `age = 30`, `name = "alice"`. -/
def aliceValues : List (Str × Value) :=
  [(ageName, .Unsigned32 30), (nameName, .Varchar [97, 108, 105, 99, 101])]

/-- The spec's scenario row: `(hk="u1", sk=7, name="alice", age=30)`,
created at epoch-millisecond 5. -/
def aliceRow : Row := Row.new [117, 49] (.Unsigned32 7) aliceValues 5

/-- The memtable after the scenario insert of `aliceRow`. -/
def mAfterInsert : Memtable := Memtable.insert [] aliceRow false 5

/-- A row with hash key `b`, for segment-search examples. -/
def rowB : Row := Row.new [98] (.Unsigned32 1) [] 0

/-- A row with hash key `c`, for segment-search examples. -/
def rowC : Row := Row.new [99] (.Unsigned32 1) [] 0

/-- A single-byte table name `t` for transaction examples. -/
def tbl : Str := [116]

/-- A transaction whose read-set observed `aliceRow` at version 1 in
table `tbl`, with no buffered operations. -/
def tx0 : Transaction :=
  { id := 7
    affected_rows := [(tbl, [(aliceRow.primary_key, 1)])]
    operations := []
    committed := false }

/-- A manager coordinating `tx0` under transaction id 7. -/
def mgr : TransactionManager :=
  { transactions := [(7, tx0)], coordinated_transactions := [7] }

/-- Table state in which `aliceRow` has meanwhile advanced to version 2:
`tx0`'s read-set is stale. -/
def tablesConflict : List (Str × Memtable) :=
  [(tbl, [{ aliceRow with version := 2 }])]

/-- A schema whose sort key is `VARCHAR(2)`, with no other columns. -/
def pairSchema : TableSchema :=
  { name := [112], sort_key_type := .Varchar 2, columns := [] }

/-- A row of `pairSchema` whose sort key `"a"` is one byte shorter than
the declared `VARCHAR(2)` width. -/
def shortRow : Row := Row.new [104] (.Varchar [97]) [] 3

/-- A decoded commit-log record as replay applies it
(`replay_commit_logs`, `commit_log.rs` lines 139-159): op tag 1 carries a
row, op tag 2 a primary key with the record's timestamp. -/
inductive ReplayRecord where
  | InsertRecord (row : Row)
  | DeleteRecord (primary_key : Str) (timestamp : Nat)
deriving DecidableEq, Repr

/-- One replayed record applied to a recovering memtable: an insert with
`from_replay = true`, or a delete with the record's timestamp override.
Neither replay path reads the clock, so `now` is passed as 0. -/
def applyReplay (m : Memtable) : ReplayRecord → Memtable
  | .InsertRecord row => Memtable.insert m row true 0
  | .DeleteRecord primary_key timestamp =>
    (Memtable.delete m primary_key (some timestamp) 0).2

/-- The bytes of a record up to (not including) its trailing newline:
the op tag followed by the op's payload. -/
def logRecordBody (schema : TableSchema) : ReplayRecord → Option (List Nat)
  | .InsertRecord row => (encode_row row schema).map (fun row_bytes => 1 :: row_bytes)
  | .DeleteRecord primary_key timestamp =>
    some (2 :: (beBytes 16 timestamp ++ primary_key))

/-- The full record as `write_insert` / `write_delete` append it. -/
def logRecordBytes (schema : TableSchema) : ReplayRecord → Option (List Nat)
  | .InsertRecord row => CommitLog.write_insert_bytes row schema
  | .DeleteRecord primary_key timestamp =>
    some (CommitLog.write_delete_bytes primary_key timestamp)

/-- Map a fallible function over a list, failing when any element fails. -/
def listMapOption {α β : Type} (f : α → Option β) : List α → Option (List β)
  | [] => some []
  | a :: rest =>
    match f a, listMapOption f rest with
    | some b, some bs => some (b :: bs)
    | _, _ => none

/-- The byte content of a commit-log file after appending the records in
order (each append of `write_insert` / `write_delete` extends the file at
its running offset). -/
def logBytes (schema : TableSchema) : List ReplayRecord → Option (List Nat)
  | [] => some []
  | r :: rest =>
    match logRecordBytes schema r, logBytes schema rest with
    | some a, some b => some (a ++ b)
    | _, _ => none

/-- Decides that no record's body (op tag plus payload) contains the
newline byte `0x0A`. -/
def bodiesNewlineFree (schema : TableSchema) (recs : List ReplayRecord) : Bool :=
  recs.all (fun r =>
    match logRecordBody schema r with
    | none => true
    | some b => !(b.contains 10))

/-- The property `Transaction::can_commit` decides, as the spec words it:
every row the transaction observed still resolves in its table's current
memtable, at the observed version. -/
def readSetStillValid (t : Transaction) (tables : List (Str × Memtable)) : Prop :=
  ∀ p ∈ t.affected_rows, ∃ m, assocLookup tables p.1 = some m ∧
    ∀ q ∈ p.2, ∃ row, Memtable.get m q.1 = some row ∧ row.version = q.2

/-- The outcome is a found row carrying the searched primary key. -/
def foundWith (o : SearchOutcome) (primary_key : Str) : Prop :=
  ∃ row, o = .Found row ∧ row.primary_key = primary_key

/-- An example pair of commit-log records whose payloads are free of the
newline byte. -/
def exampleRecords : List ReplayRecord :=
  [.DeleteRecord [107] 3, .InsertRecord aliceRow]

set_option maxRecDepth 10000 in
/-- C1.  The claim says `decode(encode(row, schema), schema) == row` for
every schema-satisfying row, hash key, sort key, column values, timestamp
and tombstone included.  On the spec's own scenario row the code returns
a row whose hash key is 128 zero bytes and whose sort key and column
values are all `Null`: `encode_row` writes the hash-key and column-value
regions through `BufWriter`s it never flushes (only the pre-filled zero
bytes reach the output), and `parse_value_from_bytes` maps any region
with a zero first byte – including the faithfully written big-endian
sort key 7 – to `Null`.  Only the timestamp and the tombstone flag
survive the round trip. -/
theorem c1_decode_encode_loses_row :
    ((encode_row aliceRow usersSchema).bind (fun e => decode_row e usersSchema)).map
        (fun r => (r.hash_key, r.sort_key, assocLookup r.values nameName,
          assocLookup r.values ageName, r.timestamp, r.marked_for_deletion)) =
      some (List.replicate HASH_KEY_BYTE_SIZE 0, Value.Null, some Value.Null,
        some Value.Null, aliceRow.timestamp, aliceRow.marked_for_deletion) ∧
    List.replicate HASH_KEY_BYTE_SIZE 0 ≠ aliceRow.hash_key ∧
    Value.Null ≠ aliceRow.sort_key ∧
    some Value.Null ≠ assocLookup aliceRow.values nameName := by
  refine ⟨by decide, by decide, by decide, by decide⟩

/-- C2 counterexample.  After the scenario insert of `("u1", 7)`, the
first delete returns `true` and a get returns absent, as the claim says –
but the second delete also returns `true` (the tombstoned node still
carries the primary key, and `Memtable::delete` never consults the
tombstone flag), where the claim requires `false`; and deleting a key
absent from the memtable returns `false` and leaves the memtable
unchanged – no fresh tombstone is inserted. -/
theorem c2_second_delete_counterexample :
    (Memtable.delete mAfterInsert aliceRow.primary_key none 6).1 = true ∧
    Memtable.get (Memtable.delete mAfterInsert aliceRow.primary_key none 6).2
        aliceRow.primary_key = none ∧
    (Memtable.delete (Memtable.delete mAfterInsert aliceRow.primary_key none 6).2
        aliceRow.primary_key none 7).1 = true ∧
    Memtable.delete ([] : Memtable) aliceRow.primary_key none 8 = (false, []) := by
  decide

/-- C3 counterexample.  With partition index `{0 ↦ 0, 1 ↦ 5}` and 10
rows, the code's right bound for partition 0 is `index[1] = 5`, not the
claim's `index[1] - 1 = 4`; with index `{0 ↦ 0, 2 ↦ 5}` the code panics
on the absent entry `index[0 + 1]` instead of using the next PRESENT
partition 2; and on a sorted two-row segment holding keys `b:1` and `c:1`
a lookup of the absent smaller key `"a"` panics on the `usize` underflow
of `current_row_number - 1` instead of reporting a miss, refuting the
claim's "returns the row iff a row with that primary key lies in the
segment". -/
theorem c3_right_bound_counterexample :
    codeRightBound [(0, 0), (1, 5)] 0 10 = some 5 ∧
    specRightBound [(0, 0), (1, 5)] 0 10 = some 4 ∧
    codeRightBound [(0, 0), (2, 5)] 0 10 = none ∧
    specRightBound [(0, 0), (2, 5)] 0 10 = some 4 ∧
    binary_search_row_in_file [97] 0 [rowB, rowC] [(0, 0)] 2 = .Crash ∧
    strLt rowB.primary_key rowC.primary_key = true ∧
    rowB.primary_key ≠ [97] ∧ rowC.primary_key ≠ [97] := by
  refine ⟨by decide, by decide, by decide, by decide, ?_, by decide, by decide, by decide⟩
  simp +decide [binary_search_row_in_file, codeRightBound, natListMax, assocLookup,
    binarySearchRows, rowB, rowC, Row.new, Value.display, natDecimal, strLt, List.get?]

/-- C4 counterexample.  A `write_delete` record whose payload contains
the byte `0x0A` – here the 16-byte big-endian timestamp 10, whose last
byte is `0x0A` – is split by replay into two segments instead of the one
record that was written: replay bounds records by splitting on every
`0x0A` byte, not by the op-tag's fixed-size payload decoder. -/
theorem c4_newline_payload_counterexample :
    (split_by_newline (CommitLog.write_delete_bytes [107] 10)).length = 2 ∧
    split_by_newline (CommitLog.write_delete_bytes [107] 10) ≠
      [2 :: (beBytes 16 10 ++ [107])] := by
  decide

/-- C6.  The claim says the partition tag in a commit log's filename is a
member of `owned_partitions`, so the startup scan replays every log the
thread created.  With owned set `{1}`, `CommitLog::open_new` draws its
tag from `gen_range(0..max{1}) = [0, 1)` – the only possible tag is 0,
which is not owned – and the replay filter therefore skips every log
this thread creates.  The code contradicts the replay filter in the same
file (which keeps only owned naming partitions); the intended draw is a
random member of the owned set. -/
theorem c6_commit_log_partition_tag_not_owned :
    (∀ draw : Nat, CommitLog.open_new_partition [1] draw = some 0) ∧
    List.contains [1] 0 = false ∧
    commitLogFileKept tbl tbl 0 [1] = false := by
  refine ⟨fun draw => ?_, by decide, by decide⟩
  simp [CommitLog.open_new_partition, natListMax, Nat.mod_one]

set_option maxRecDepth 10000 in
/-- C7 counterexample.  The claim says the encoded length equals
`row_byte_size` for every schema-satisfying row of every supported
column type.  For a `VARCHAR(2)` sort key holding the one-byte string
`"a"` the sort key is appended via `to_bytes` without padding, so the
encoded block is one byte short of `row_byte_size`. -/
theorem c7_row_size_counterexample :
    (encode_row shortRow pairSchema).map List.length = some 146 ∧
    pairSchema.row_byte_size = 147 ∧
    (encode_row shortRow pairSchema).map List.length ≠
      some pairSchema.row_byte_size := by
  refine ⟨by decide, by decide, by decide⟩

/-- C2 amended.  `Memtable::delete` without a replay override returns
whether a node with the primary key exists in the memtable – tombstoned
or not – so the first delete of an inserted key returns `true` and a get
then reports the key absent, but a second delete also returns `true`;
and deleting a key with no memtable node returns `false` and leaves the
memtable unchanged (no fresh tombstone is inserted). -/
theorem c2_delete_reports_node_presence (m : Memtable) (primary_key : Str)
    (now : Nat) :
    (Memtable.delete m primary_key none now).1 =
      m.any (fun r => decide (r.primary_key = primary_key)) ∧
    Memtable.get (Memtable.delete m primary_key none now).2 primary_key = none ∧
    (m.any (fun r => decide (r.primary_key = primary_key)) = false →
      Memtable.delete m primary_key none now = (false, m)) := by
  induction m with
  | nil => simp [Memtable.delete, Memtable.get]
  | cons node rest ih =>
    by_cases hpk : node.primary_key = primary_key
    · simp [Memtable.delete, Memtable.get, hpk]
    · have hany : ((node :: rest).any (fun r => decide (r.primary_key = primary_key))) =
          (rest.any (fun r => decide (r.primary_key = primary_key))) := by
        simp [List.any_cons, hpk]
      simp only [Memtable.delete, if_neg hpk, hany]
      refine ⟨ih.1, ?_, ?_⟩
      · simpa [Memtable.get, hpk] using ih.2.1
      · intro hnone
        have h2 := ih.2.2 hnone
        simp [h2]

/-- C2 amended, witness: deleting from an empty memtable returns `false`
and inserts nothing. -/
theorem c2_delete_reports_node_presence_witness :
    Memtable.delete ([] : Memtable) [107] none 0 = (false, []) :=
  (c2_delete_reports_node_presence [] [107] 0).2.2 rfl

/-- C8.  Commit-log replay is idempotent record by record: applying any
replayed record (an insert carrying its row's timestamp, or a delete
with a timestamp override) twice leaves the memtable exactly as applying
it once, because a replayed insert is accepted only when its timestamp
strictly exceeds the stored one and a replayed delete only when its
override exceeds the stored timestamp. -/
theorem c8_replay_idempotent (m : Memtable) (rec : ReplayRecord) :
    applyReplay (applyReplay m rec) rec = applyReplay m rec := by
  cases rec with
  | InsertRecord row =>
    simp only [applyReplay]
    induction m with
    | nil => simp [Memtable.insert]
    | cons node rest ih =>
      by_cases hpk : node.primary_key = row.primary_key
      · by_cases hts : row.timestamp ≤ node.timestamp
        · simp [Memtable.insert, hpk, hts]
        · simp [Memtable.insert, hpk, hts]
      · by_cases hlt : strLt node.primary_key row.primary_key
        · simp [Memtable.insert, hpk, hlt, ih]
        · simp [Memtable.insert, hpk, hlt]
  | DeleteRecord pk ts =>
    simp only [applyReplay]
    induction m with
    | nil => simp [Memtable.delete]
    | cons node rest ih =>
      by_cases hpk : node.primary_key = pk
      · by_cases hts : ts ≤ node.timestamp
        · simp [Memtable.delete, hpk, hts]
        · simp [Memtable.delete, hpk, hts]
      · simp [Memtable.delete, hpk, ih]

/-- C9.  Inside a transaction, delete consults only the memtable: when
the memtable has no live entry for the key – in particular when the row
lives only in SSTables – `Transaction::delete` returns `false` and the
transaction is unchanged: no `Delete` operation is buffered and no
version is recorded in the read-set, so a commit of the transaction
applies no operation for that key. -/
theorem c9_transaction_delete_memtable_only (t : Transaction)
    (primary_key : Str) (memtable : Memtable) (table_name : Str)
    (h : Memtable.get memtable primary_key = none) :
    Transaction.delete t primary_key memtable table_name = (false, t) := by
  simp [Transaction.delete, h]

/-- C9 witness: deleting an absent key inside a fresh transaction. -/
theorem c9_transaction_delete_memtable_only_witness :
    Transaction.delete (Transaction.new 7) [107] ([] : Memtable) tbl =
      (false, Transaction.new 7) :=
  c9_transaction_delete_memtable_only (Transaction.new 7) [107] [] tbl rfl

/-- `beBytes` always yields exactly `w` bytes. -/
theorem beBytes_length (w n : Nat) : (beBytes w n).length = w := by
  simp [beBytes]

/-- The encoded column region of a row is exactly the sum of the
declared column widths (each region is the pre-zeroed buffer of its
column's `byte_size`). -/
theorem encodeColumns_length (values : List (Str × Value)) :
    ∀ (cols : List (Str × Column)) (l : List Nat),
      encodeColumns values cols = some l →
      l.length = (cols.map (fun c => c.2.column_type.byte_size)).sum := by
  intro cols
  induction cols with
  | nil =>
    intro l h
    simp [encodeColumns] at h
    simp [h]
  | cons c rest ih =>
    intro l h
    obtain ⟨name, col⟩ := c
    simp only [encodeColumns] at h
    cases hl : assocLookup values name with
    | none => rw [hl] at h; exact absurd h (by simp)
    | some v =>
      rw [hl] at h
      cases ht : encodeColumns values rest with
      | none => rw [ht] at h; exact absurd h (by simp)
      | some tail =>
        rw [ht] at h
        simp only [Option.map_some', Option.some.injEq] at h
        subst h
        simp [List.length_append, ih tail ht]

/-- C7 amended.  Whenever `encode_row` succeeds, the encoded block's
length is `HASH_KEY_BYTE_SIZE + |to_bytes(sort_key)| + Σ column widths
+ 16 + 1`: the hash-key and column regions always have their declared
widths, but the sort key is appended via `to_bytes` without padding, so
the length equals `row_byte_size` exactly when the sort key's byte
length equals the declared sort-key width – always for the fixed-width
types, and for a `VARCHAR(N)` sort key only when the string is exactly
`N` bytes. -/
theorem c7_encoded_row_length (row : Row) (schema : TableSchema) (e : List Nat)
    (h : encode_row row schema = some e) :
    e.length = HASH_KEY_BYTE_SIZE + row.sort_key.to_bytes.length +
      (schema.columns.map (fun c => c.2.column_type.byte_size)).sum + 17 ∧
    (row.sort_key.to_bytes.length = schema.sort_key_type.byte_size →
      e.length = schema.row_byte_size) := by
  simp only [encode_row] at h
  obtain ⟨cols, hcols, he⟩ := Option.map_eq_some'.mp h
  have hlen := encodeColumns_length row.values schema.columns cols hcols
  subst he
  have hmain : (List.replicate HASH_KEY_BYTE_SIZE 0 ++ row.sort_key.to_bytes ++ cols ++
      beBytes 16 row.timestamp ++
      [if row.marked_for_deletion then 1 else 0]).length =
      HASH_KEY_BYTE_SIZE + row.sort_key.to_bytes.length +
        (schema.columns.map (fun c => c.2.column_type.byte_size)).sum + 17 := by
    simp [List.length_append, beBytes_length, hlen]
    try omega
  refine ⟨hmain, fun hsk => ?_⟩
  rw [hmain, TableSchema.row_byte_size, ← hsk]
  try omega

/-- C7 amended, witness: on the scenario row – whose `UNSIGNED32` sort
key has its full declared width – the encoded length equals
`row_byte_size`. -/
theorem c7_encoded_row_length_witness :
    (encode_row aliceRow usersSchema).map List.length =
      some usersSchema.row_byte_size := by
  cases hE : encode_row aliceRow usersSchema with
  | none => exact absurd hE (by decide)
  | some e =>
    exact congrArg some ((c7_encoded_row_length aliceRow usersSchema e hE).2 (by decide))

/-- A lookup that succeeds on the left part of an appended map is
unaffected by the appended entries. -/
theorem assocLookup_append_left {α : Type} (values extra : List (Str × α))
    (n : Str) (h : (assocLookup values n).isSome) :
    assocLookup (values ++ extra) n = assocLookup values n := by
  induction values with
  | nil => simp [assocLookup] at h
  | cons p rest ih =>
    obtain ⟨k, v⟩ := p
    by_cases hk : k = n
    · simp [assocLookup, hk]
    · simp only [List.cons_append, assocLookup, if_neg hk] at h ⊢
      exact ih h

/-- When no schema column is missing, every schema column's lookup
succeeds. -/
theorem missingNilIsSome (values : List (Str × Value)) (schema : TableSchema)
    (h : schemaMissingColumns values schema = []) :
    ∀ n ∈ schema.columns.map Prod.fst, (assocLookup values n).isSome := by
  simp only [schemaMissingColumns, List.filter_eq_nil_iff] at h
  intro n hn
  have hx := h n hn
  cases hopt : assocLookup values n with
  | none => rw [hopt] at hx; simp at hx
  | some v => simp [hopt]

/-- `encodeColumns` depends on the values map only through whether each
schema column resolves (its output bytes are the pre-zeroed buffers). -/
theorem encodeColumnsCongr (v1 v2 : List (Str × Value)) :
    ∀ cols : List (Str × Column),
      (∀ n ∈ cols.map Prod.fst, (assocLookup v1 n).isSome = (assocLookup v2 n).isSome) →
      encodeColumns v1 cols = encodeColumns v2 cols := by
  intro cols
  induction cols with
  | nil => intro _; rfl
  | cons c rest ih =>
    intro hcong
    obtain ⟨name, col⟩ := c
    have hname := hcong name (by simp)
    have hrest : ∀ n ∈ rest.map Prod.fst,
        (assocLookup v1 n).isSome = (assocLookup v2 n).isSome :=
      fun n hn => hcong n (by simp [hn])
    simp only [encodeColumns]
    cases h1 : assocLookup v1 name with
    | none =>
      cases h2 : assocLookup v2 name with
      | none => rfl
      | some w => rw [h1, h2] at hname; simp at hname
    | some w =>
      cases h2 : assocLookup v2 name with
      | none => rw [h1, h2] at hname; simp at hname
      | some w2 => rw [ih hrest]

/-- The per-column validation loop only reads the schema columns'
lookups. -/
theorem columnsErrorFreeCongr (v1 v2 : List (Str × Value)) :
    ∀ cols : List (Str × Column),
      (∀ n ∈ cols.map Prod.fst, assocLookup v1 n = assocLookup v2 n) →
      columnsErrorFree v1 cols = columnsErrorFree v2 cols := by
  intro cols
  induction cols with
  | nil => intro _; rfl
  | cons c rest ih =>
    intro hcong
    obtain ⟨name, col⟩ := c
    have hname := hcong name (by simp)
    have hrest : ∀ n ∈ rest.map Prod.fst, assocLookup v1 n = assocLookup v2 n :=
      fun n hn => hcong n (by simp [hn])
    simp only [columnsErrorFree, hname, ih hrest]

/-- C10.  Schema validation rejects only missing columns, never extra
ones: when a values map passes validation, appending any further entries
– in particular column names absent from the schema – still validates,
and the extra entries are ignored by row encoding (the encoded bytes are
unchanged). -/
theorem c10_extra_columns_ignored (sort_key : Value)
    (values extra : List (Str × Value)) (schema : TableSchema) (row : Row)
    (hok : validate_values_against_schema sort_key values schema = some true) :
    validate_values_against_schema sort_key (values ++ extra) schema = some true ∧
    encode_row { row with values := values ++ extra } schema =
      encode_row { row with values := values } schema := by
  have hmiss : schemaMissingColumns values schema = [] := by
    by_contra hne
    simp [validate_values_against_schema, hne] at hok
  have hsome := missingNilIsSome values schema hmiss
  have hlook : ∀ n ∈ schema.columns.map Prod.fst,
      assocLookup (values ++ extra) n = assocLookup values n :=
    fun n hn => assocLookup_append_left values extra n (hsome n hn)
  have hmiss2 : schemaMissingColumns (values ++ extra) schema = [] := by
    simp only [schemaMissingColumns, List.filter_eq_nil_iff]
    intro n hn
    rw [hlook n hn]
    have := hsome n hn
    cases hopt : assocLookup values n with
    | none => rw [hopt] at this; simp at this
    | some v => simp [hopt]
  constructor
  · simp only [validate_values_against_schema, hmiss, hmiss2, ne_eq,
      not_true_eq_false, not_false_eq_true, if_false] at hok ⊢
    rw [columnsErrorFreeCongr (values ++ extra) values schema.columns hlook]
    exact hok
  · simp only [encode_row]
    rw [encodeColumnsCongr (values ++ extra) values schema.columns
      (fun n hn => by rw [hlook n hn])]

/-- C10 witness: the scenario row still validates and encodes
identically with an extra column `"x"` unknown to the schema. -/
theorem c10_extra_columns_ignored_witness :
    validate_values_against_schema (.Unsigned32 7)
        (aliceValues ++ [([120], .Boolean true)]) usersSchema = some true ∧
    encode_row { aliceRow with values := aliceValues ++ [([120], .Boolean true)] }
        usersSchema =
      encode_row { aliceRow with values := aliceValues } usersSchema :=
  c10_extra_columns_ignored (.Unsigned32 7) aliceValues [([120], .Boolean true)]
    usersSchema aliceRow (by decide)

/-- One table's read-set check succeeds exactly when every observed key
still resolves to a live row of its observed version. -/
theorem versionsOk_iff (m : Memtable) : ∀ vs : List (Str × Nat),
    versionsOk m vs = true ↔
      ∀ q ∈ vs, ∃ row, Memtable.get m q.1 = some row ∧ row.version = q.2 := by
  intro vs
  induction vs with
  | nil => simp [versionsOk]
  | cons q rest ih =>
    obtain ⟨pk, ver⟩ := q
    simp only [versionsOk]
    cases hget : Memtable.get m pk with
    | none =>
      simp only [List.mem_cons, Bool.false_eq_true, false_iff]
      intro hall
      obtain ⟨row, hrow, _⟩ := hall (pk, ver) (Or.inl rfl)
      simp at hrow
      exact absurd (hget ▸ hrow) (by simp)
    | some row =>
      constructor
      · intro hand
        have h1 : row.version = ver := by
          have := (Bool.and_eq_true _ _).mp hand
          simpa using this.1
        have h2 := ih.mp ((Bool.and_eq_true _ _).mp hand).2
        intro q hq
        rcases List.mem_cons.mp hq with hq | hq
        · subst hq; exact ⟨row, hget, h1⟩
        · exact h2 q hq
      · intro hall
        obtain ⟨row2, hrow2, hver2⟩ := hall (pk, ver) (by simp)
        rw [hget] at hrow2
        have hrweq : row = row2 := by injection hrow2
        apply (Bool.and_eq_true _ _).mpr
        refine ⟨by simp [hrweq, hver2], ih.mpr ?_⟩
        intro q hq
        exact hall q (by simp [hq])

/-- The `can_commit` iteration votes `yes` exactly when every affected
table resolves and passes its version check. -/
theorem canCommitGoTrueIff (tables : List (Str × Memtable)) :
    ∀ l : List (Str × List (Str × Nat)),
      Transaction.can_commit.canCommitGo tables l = some true ↔
        ∀ p ∈ l, ∃ m, assocLookup tables p.1 = some m ∧
          ∀ q ∈ p.2, ∃ row, Memtable.get m q.1 = some row ∧ row.version = q.2 := by
  intro l
  induction l with
  | nil => simp [Transaction.can_commit.canCommitGo]
  | cons p rest ih =>
    obtain ⟨tn, vs⟩ := p
    cases hm : assocLookup tables tn with
    | none =>
      have hstep : Transaction.can_commit.canCommitGo tables ((tn, vs) :: rest) = none := by
        simp [Transaction.can_commit.canCommitGo, hm]
      rw [hstep]
      constructor
      · intro hx; exact absurd hx (by simp)
      · intro hall
        obtain ⟨m, hmm, _⟩ := hall (tn, vs) (by simp)
        exact absurd (hm ▸ hmm) (by simp)
    | some m =>
      have hstep : Transaction.can_commit.canCommitGo tables ((tn, vs) :: rest) =
          (if versionsOk m vs = true then Transaction.can_commit.canCommitGo tables rest
           else some false) := by
        simp [Transaction.can_commit.canCommitGo, hm]
      rw [hstep]
      by_cases hv : versionsOk m vs = true
      · rw [if_pos hv]
        constructor
        · intro hrest
          intro p hp
          rcases List.mem_cons.mp hp with hp | hp
          · subst hp
            exact ⟨m, hm, (versionsOk_iff m vs).mp hv⟩
          · exact (ih.mp hrest) p hp
        · intro hall
          apply ih.mpr
          intro p hp
          exact hall p (by simp [hp])
      · rw [if_neg hv]
        constructor
        · intro hx; exact absurd hx (by simp)
        · intro hall
          obtain ⟨m2, hm2, hprop⟩ := hall (tn, vs) (by simp)
          rw [hm] at hm2
          have : m = m2 := by injection hm2
          subst this
          exact absurd ((versionsOk_iff m vs).mpr hprop) hv

/-- C5.  `TransactionManager::commit` on a coordinated transaction:
`can_commit` votes `yes` exactly when every row of the read-set still
exists (live) in its table's current memtable at its observed version;
on a `no` vote the commit returns a server error and every table is
returned untouched – no buffered operation is applied; on a `yes` vote
it succeeds and applies all buffered operations via
`Transaction::commit`. -/
theorem c5_commit_validation (manager : TransactionManager) (transaction_id : Nat)
    (t : Transaction) (tables : List (Str × Memtable)) (now : Nat)
    (hc : manager.coordinated_transactions.contains transaction_id = true)
    (ht : assocLookup manager.transactions transaction_id = some t) :
    (t.can_commit tables = some true ↔ readSetStillValid t tables) ∧
    (t.can_commit tables = some false →
      TransactionManager.commit manager transaction_id tables now =
        some (.error .Server,
          { transactions := assocRemove manager.transactions transaction_id
            coordinated_transactions :=
              manager.coordinated_transactions.filter (fun x => x ≠ transaction_id) },
          tables)) ∧
    (∀ tables2, t.can_commit tables = some true →
      t.commit tables now = some tables2 →
      TransactionManager.commit manager transaction_id tables now =
        some (.ok (),
          { transactions := assocRemove manager.transactions transaction_id
            coordinated_transactions :=
              manager.coordinated_transactions.filter (fun x => x ≠ transaction_id) },
          tables2)) := by
  refine ⟨canCommitGoTrueIff tables t.affected_rows, ?_, ?_⟩
  · intro hfalse
    simp [TransactionManager.commit, hc, ht, hfalse]
    simpa using hc
  · intro tables2 htrue hcommit
    simp [TransactionManager.commit, hc, ht, htrue, hcommit]
    simpa using hc

/-- C5 witness: `tx0` observed version 1 but the table now holds version
2, so the commit returns a server error and the tables are unchanged. -/
theorem c5_commit_validation_witness :
    TransactionManager.commit mgr 7 tablesConflict 9 =
      some (.error .Server,
        { transactions := [], coordinated_transactions := [] },
        tablesConflict) :=
  (c5_commit_validation mgr 7 tx0 tablesConflict 9 (by decide) (by decide)).2.1 (by decide)

/-- Splitting a log whose first record's body is newline-free peels off
exactly that body (the accumulator generalises the partial line). -/
theorem splitGoRecord (b : List Nat) : ∀ (rest cur : List Nat),
    cur ++ b ≠ [] → (10 : Nat) ∉ b →
    splitByNewlineGo (b ++ 10 :: rest) cur = (cur ++ b) :: splitByNewlineGo rest [] := by
  induction b with
  | nil =>
    intro rest cur hcur _
    have hne : cur ≠ [] := by simpa using hcur
    simp only [List.nil_append, splitByNewlineGo, if_pos rfl]
    simp [List.isEmpty_iff, hne]
  | cons x xs ih =>
    intro rest cur hcur hfree
    have hx : x ≠ 10 := fun hxx => hfree (by simp [hxx])
    have hfree2 : (10 : Nat) ∉ xs := fun hmem => hfree (by simp [hmem])
    simp only [List.cons_append, splitByNewlineGo, if_neg hx, List.append_eq]
    rw [ih rest (cur ++ [x]) (by simp) hfree2]
    simp

/-- Every record body starts with its op tag, so it is never empty. -/
theorem logRecordBodyNe (schema : TableSchema) (r : ReplayRecord)
    (body : List Nat) (h : logRecordBody schema r = some body) : body ≠ [] := by
  cases r with
  | InsertRecord row =>
    simp only [logRecordBody] at h
    obtain ⟨rb, _, hbody⟩ := Option.map_eq_some'.mp h
    simp [← hbody]
  | DeleteRecord pk ts =>
    simp only [logRecordBody, Option.some.injEq] at h
    simp [← h]

/-- `write_insert` / `write_delete` append exactly the record body
followed by one newline byte. -/
theorem logRecordBytesIsBodyNewline (schema : TableSchema) (r : ReplayRecord)
    (body : List Nat) (h : logRecordBody schema r = some body) :
    logRecordBytes schema r = some (body ++ [10]) := by
  cases r with
  | InsertRecord row =>
    simp only [logRecordBody] at h
    obtain ⟨rb, hrb, hbody⟩ := Option.map_eq_some'.mp h
    simp [logRecordBytes, CommitLog.write_insert_bytes, hrb, ← hbody]
  | DeleteRecord pk ts =>
    simp only [logRecordBody, Option.some.injEq] at h
    simp [logRecordBytes, CommitLog.write_delete_bytes, ← h]

/-- C4 amended.  Replay bounds records by splitting the log on every
`0x0A` byte (dropping empty chunks), not by the op-tag's fixed-size
payload decoder; the split therefore recovers exactly the byte records
that `write_insert` / `write_delete` appended, in order, PROVIDED no
record's payload contains the byte `0x0A` – a payload `0x0A` breaks the
record into several bogus segments (see the counterexample). -/
theorem c4_replay_framing_amended (schema : TableSchema) :
    ∀ (recs : List ReplayRecord) (l : List Nat) (bodies : List (List Nat)),
      logBytes schema recs = some l →
      listMapOption (logRecordBody schema) recs = some bodies →
      bodiesNewlineFree schema recs = true →
      split_by_newline l = bodies := by
  intro recs
  induction recs with
  | nil =>
    intro l bodies hl hb _
    simp only [logBytes, Option.some.injEq] at hl
    simp only [listMapOption, Option.some.injEq] at hb
    subst hl; subst hb
    simp [split_by_newline, splitByNewlineGo]
  | cons r rest ih =>
    intro l bodies hl hb hfree
    cases hb0 : logRecordBody schema r with
    | none => rw [listMapOption, hb0] at hb; exact absurd hb (by simp)
    | some b0 =>
      cases hbs : listMapOption (logRecordBody schema) rest with
      | none =>
        rw [listMapOption, hb0, hbs] at hb
        exact absurd hb (by simp)
      | some bs =>
        rw [listMapOption, hb0, hbs, Option.some.injEq] at hb
        subst hb
        have ha : logRecordBytes schema r = some (b0 ++ [10]) :=
          logRecordBytesIsBodyNewline schema r b0 hb0
        cases htail : logBytes schema rest with
        | none => rw [logBytes, ha, htail] at hl; exact absurd hl (by simp)
        | some tail =>
          rw [logBytes, ha, htail, Option.some.injEq] at hl
          subst hl
          have hfree0 : (10 : Nat) ∉ b0 := by
            have := hfree
            simp only [bodiesNewlineFree, List.all_cons, Bool.and_eq_true] at this
            rcases this with ⟨hh, _⟩
            rw [hb0] at hh
            simpa [List.contains] using hh
          have hfreeRest : bodiesNewlineFree schema rest = true := by
            simp only [bodiesNewlineFree, List.all_cons, Bool.and_eq_true] at hfree
            exact hfree.2
          have hne : ([] : List Nat) ++ b0 ≠ [] := by
            simpa using logRecordBodyNe schema r b0 hb0
          have hsplit : (b0 ++ [10]) ++ tail = b0 ++ 10 :: tail := by simp
          rw [split_by_newline, hsplit, splitGoRecord b0 tail [] hne hfree0]
          simpa [split_by_newline] using
            congrArg (fun x => b0 :: x) (ih tail bs htail hbs hfreeRest)

/-- C4 amended, witness: a delete record and an insert record with
newline-free payloads split back into exactly their two bodies. -/
theorem c4_replay_framing_amended_witness :
    (logBytes usersSchema exampleRecords).map split_by_newline =
      listMapOption (logRecordBody usersSchema) exampleRecords := by
  cases hl : logBytes usersSchema exampleRecords with
  | none => exact absurd hl (by decide)
  | some l =>
    cases hb : listMapOption (logRecordBody usersSchema) exampleRecords with
    | none => exact absurd hb (by decide)
    | some bodies =>
      exact congrArg some (c4_replay_framing_amended usersSchema exampleRecords l bodies hl hb (by decide))

/-- Byte-wise string order is irreflexive. -/
theorem strLt_irrefl (s : Str) : strLt s s = false := by
  induction s with
  | nil => rfl
  | cons a as ih => simp [strLt, ih]

/-- Byte-wise string order is asymmetric. -/
theorem strLt_asymm (a : Str) : ∀ b : Str, strLt a b = true → strLt b a = false := by
  induction a with
  | nil => intro b _; cases b <;> simp [strLt]
  | cons x xs ih =>
    intro b hab
    cases b with
    | nil => simp [strLt] at hab
    | cons y ys =>
      simp only [strLt] at hab ⊢
      by_cases hxy : x < y
      · simp [Nat.lt_asymm hxy, hxy]
      · by_cases hyx : y < x
        · simp [hxy, hyx] at hab
        · have hxyeq : x = y := by omega
          subst hxyeq
          simp [hxy] at hab ⊢
          exact ih ys hab

/-- Two byte strings with neither smaller are equal. -/
theorem strLt_eq_of_not (a : Str) : ∀ b : Str, strLt a b = false → strLt b a = false → a = b := by
  induction a with
  | nil => intro b hab _; cases b with
    | nil => rfl
    | cons y ys => simp [strLt] at hab
  | cons x xs ih =>
    intro b hab hba
    cases b with
    | nil => simp [strLt] at hba
    | cons y ys =>
      simp only [strLt] at hab hba
      by_cases hxy : x < y
      · simp [hxy] at hab
      · by_cases hyx : y < x
        · simp [hyx, Nat.lt_asymm hyx] at hba
        · have hxyeq : x = y := by omega
          subst hxyeq
          simp [hxy] at hab hba
          rw [ih ys hab hba]

/-- The binary-search loop finds a row with the searched primary key
whenever one lies at a position inside `[left, right]` of a segment
sorted strictly by primary key (and the range stays inside the file). -/
theorem binarySearchFinds (rows : List Row) (pk : Str)
    (hs : List.Pairwise (fun a b => strLt a.primary_key b.primary_key = true) rows)
    (l r : Nat) (hr : r < rows.length) (i : Nat) (rowi : Row)
    (hli : l ≤ i) (hir : i ≤ r)
    (hgeti : rows.get? i = some rowi) (hpki : rowi.primary_key = pk) :
    foundWith (binarySearchRows rows pk l r) pk := by
  have hlr : l ≤ r := Nat.le_trans hli hir
  have hilen : i < rows.length := Nat.lt_of_le_of_lt hir hr
  have hclen : (l + r) / 2 < rows.length := by omega
  have hcl : l ≤ (l + r) / 2 := by omega
  have hcr : (l + r) / 2 ≤ r := by omega
  have hrowc : rows.get? ((l + r) / 2) = some (rows.get ⟨(l + r) / 2, hclen⟩) :=
    List.get?_eq_get hclen
  have hgeti2 : rows.get ⟨i, hilen⟩ = rowi := by
    have hx := List.get?_eq_get hilen
    rw [hgeti] at hx
    exact (Option.some.inj hx).symm
  have hmono : ∀ (a b : Nat) (ha : a < rows.length) (hb : b < rows.length), a < b →
      strLt (rows.get ⟨a, ha⟩).primary_key (rows.get ⟨b, hb⟩).primary_key = true := by
    intro a b ha hb hab
    exact List.pairwise_iff_get.mp hs ⟨a, ha⟩ ⟨b, hb⟩ hab
  have hstep : binarySearchRows rows pk l r =
      (if strLt (rows.get ⟨(l + r) / 2, hclen⟩).primary_key pk then
        binarySearchRows rows pk ((l + r) / 2 + 1) r
      else if strLt pk (rows.get ⟨(l + r) / 2, hclen⟩).primary_key then
        (if _hzero : (l + r) / 2 = 0 then .Crash
         else binarySearchRows rows pk l ((l + r) / 2 - 1))
      else .Found (rows.get ⟨(l + r) / 2, hclen⟩)) := by
    rw [binarySearchRows, dif_neg (by omega), hrowc]
  rw [hstep]
  by_cases h1 : strLt (rows.get ⟨(l + r) / 2, hclen⟩).primary_key pk = true
  · rw [if_pos h1]
    have hci : (l + r) / 2 < i := by
      rcases Nat.lt_trichotomy ((l + r) / 2) i with hlt | heq | hgt
      · exact hlt
      · exfalso
        have hri : rows.get? ((l + r) / 2) = some rowi := by rw [heq]; exact hgeti
        rw [hrowc] at hri
        have hce : rows.get ⟨(l + r) / 2, hclen⟩ = rowi := Option.some.inj hri
        rw [hce, hpki] at h1
        exact absurd h1 (by simp [strLt_irrefl])
      · exfalso
        have hm := hmono i ((l + r) / 2) hilen hclen hgt
        rw [hgeti2, hpki] at hm
        have := strLt_asymm pk (rows.get ⟨(l + r) / 2, hclen⟩).primary_key hm
        rw [h1] at this
        exact absurd this (by simp)
    exact binarySearchFinds rows pk hs ((l + r) / 2 + 1) r hr i rowi hci hir hgeti hpki
  · rw [if_neg h1]
    by_cases h2 : strLt pk (rows.get ⟨(l + r) / 2, hclen⟩).primary_key = true
    · rw [if_pos h2]
      have hci : i < (l + r) / 2 := by
        rcases Nat.lt_trichotomy i ((l + r) / 2) with hlt | heq | hgt
        · exact hlt
        · exfalso
          have hri : rows.get? ((l + r) / 2) = some rowi := by rw [← heq]; exact hgeti
          rw [hrowc] at hri
          have hce : rows.get ⟨(l + r) / 2, hclen⟩ = rowi := Option.some.inj hri
          rw [hce, hpki] at h2
          exact absurd h2 (by simp [strLt_irrefl])
        · exfalso
          have hm := hmono ((l + r) / 2) i hclen hilen hgt
          rw [hgeti2, hpki] at hm
          have := strLt_asymm (rows.get ⟨(l + r) / 2, hclen⟩).primary_key pk hm
          rw [h2] at this
          exact absurd this (by simp)
      rw [dif_neg (by omega)]
      exact binarySearchFinds rows pk hs l ((l + r) / 2 - 1) (by omega) i rowi hli
        (by omega) hgeti hpki
    · rw [if_neg h2]
      have hb1 : strLt (rows.get ⟨(l + r) / 2, hclen⟩).primary_key pk = false := by
        simpa using h1
      have hb2 : strLt pk (rows.get ⟨(l + r) / 2, hclen⟩).primary_key = false := by
        simpa using h2
      have heq := strLt_eq_of_not (rows.get ⟨(l + r) / 2, hclen⟩).primary_key pk hb1 hb2
      exact ⟨rows.get ⟨(l + r) / 2, hclen⟩, rfl, heq⟩
termination_by r + 1 - l
decreasing_by
  · omega
  · omega

/-- C3 amended.  The searched range of a segment point lookup is
`left = index[partition]` and `right = num_rows - 1` when `partition` is
the largest indexed partition, otherwise `right = index[partition + 1]`
– with nothing subtracted, and panicking when `partition + 1` itself is
not indexed (`codeRightBound`; the spec's `index[next_partition] - 1`
over the next PRESENT partition is refuted by the counterexample).
Within those bounds, the lookup returns a row with the searched primary
key whenever one lies in the range of the sorted segment; the converse
direction of the claim ("iff") fails because a lookup of an absent key
can panic on index underflow instead of missing (see the
counterexample). -/
theorem c3_bounded_search_amended (pk : Str) (partition : Nat) (rows : List Row)
    (partition_index : List (Nat × Nat)) (num_of_rows left right i : Nat)
    (rowi : Row)
    (hleft : assocLookup partition_index partition = some left)
    (hright : codeRightBound partition_index partition num_of_rows = some right)
    (hs : List.Pairwise (fun a b => strLt a.primary_key b.primary_key = true) rows)
    (hr : right < rows.length)
    (hli : left ≤ i) (hir : i ≤ right)
    (hgeti : rows.get? i = some rowi) (hpki : rowi.primary_key = pk) :
    foundWith (binary_search_row_in_file pk partition rows partition_index num_of_rows)
      pk := by
  have hstep : binary_search_row_in_file pk partition rows partition_index num_of_rows =
      binarySearchRows rows pk left right := by
    simp only [binary_search_row_in_file, hleft, hright]
  rw [hstep]
  exact binarySearchFinds rows pk hs left right hr i rowi hli hir hgeti hpki

/-- C3 amended, witness: searching the two-row sorted segment for its
second key finds it. -/
theorem c3_bounded_search_amended_witness :
    foundWith (binary_search_row_in_file rowC.primary_key 0 [rowB, rowC] [(0, 0)] 2)
      rowC.primary_key :=
  c3_bounded_search_amended rowC.primary_key 0 [rowB, rowC] [(0, 0)] 2 0 1 1 rowC
    rfl rfl (by decide) (by decide) (by decide) (by decide) rfl rfl
